import Mathlib

/-!
Verification of `matrixcounter.py` (DE-RSE/reports-matrix) via a shallow
embedding in Lean 4.

The Python program is a single linear script.  Its pieces are embedded as
pure Lean functions:

* `add_data` — the incremental time-series recorder (lines 205-226);
  the in-place mutation of the two lists becomes returning the updated pair,
  and `print('internal error'); sys.exit(1)` becomes
  `.error ("internal error", 1)` (message, exit status).
* the main room loop and the synthetic "total" update (lines 228-260);
* the status-file loader `load_status` (lines 108-130) over a JSON value type;
* the save phase (lines 268-284);
* a JSON printer/parser pair modelling `json.dump`/`json.load` for the
  counter-file round trip.
-/

namespace MatrixCounter

/-- Shallow embedding of `add_data(dates, values, date, value)`
(src/matrixcounter.py lines 205-226).  Python: abort with exit status 1 on a
length mismatch; overwrite the last date (`dates[-1] = date`) when there are
more than one points and the last two values both equal `value`; otherwise
append the new point to both lists. -/
def add_data {α β : Type} [DecidableEq β] (dates : List α) (values : List β)
    (date : α) (value : β) : Except (String × Nat) (List α × List β) :=
  if dates.length ≠ values.length then
    .error ("internal error", 1)
  else if 1 < dates.length ∧ values.getLast? = some value ∧
      values[values.length - 2]? = some value then
    .ok (dates.dropLast ++ [date], values)
  else
    .ok (dates ++ [date], values ++ [value])

/-- Iterated `add_data` over a list of observations, propagating the fatal
error; this models a sequence of calls against the same pair of lists. -/
def run_adds {α β : Type} [DecidableEq β] (dates : List α) (values : List β) :
    List (α × β) → Except (String × Nat) (List α × List β)
  | [] => .ok (dates, values)
  | ob :: rest =>
      Except.bind (add_data dates values ob.1 ob.2)
        (fun p => run_adds p.1 p.2 rest)

/-- When the last stored value differs from `value` (in particular when the
value lists are empty), `add_data` takes the append branch. -/
theorem add_data_append_of_last_ne {α β : Type} [DecidableEq β]
    (D : List α) (V : List β) (t : α) (v : β)
    (hlen : D.length = V.length) (h : V.getLast? ≠ some v) :
    add_data D V t v = .ok (D ++ [t], V ++ [v]) := by
  unfold add_data
  rw [if_neg (by omega)]
  rw [if_neg]
  rintro ⟨-, h2, -⟩
  exact h h2

/-- Second observation of a fresh value still appends: after one point with
value `v` was appended on top of a state not ending in `v`, the next
observation of `v` is appended as well (the second-to-last value differs). -/
theorem add_data_append_second {α β : Type} [DecidableEq β]
    (D : List α) (V : List β) (a t : α) (v : β)
    (hlen : D.length = V.length) (h : V.getLast? ≠ some v) :
    add_data (D ++ [a]) (V ++ [v]) t v =
      .ok (D ++ [a, t], V ++ [v, v]) := by
  unfold add_data
  rw [if_neg (by simp [hlen])]
  rw [if_neg]
  · simp
  rintro ⟨h1, -, h3⟩
  simp only [List.length_append, List.length_cons, List.length_nil] at h1 h3
  have hV : 0 < V.length := by omega
  rw [show V.length + (0 + 1) - 2 = V.length - 1 from by omega] at h3
  rw [List.getElem?_append_left (by omega)] at h3
  rw [← List.getLast?_eq_getElem? V] at h3
  exact h h3

/-- Plateau step: once the series ends in two equal values `v`, a further
observation of `v` only replaces the last timestamp. -/
theorem add_data_flat_step {α β : Type} [DecidableEq β]
    (D : List α) (V : List β) (a b t : α) (v : β)
    (hlen : D.length = V.length) :
    add_data (D ++ [a, b]) (V ++ [v, v]) t v =
      .ok (D ++ [a, t], V ++ [v, v]) := by
  unfold add_data
  rw [if_neg (by simp [hlen])]
  rw [if_pos]
  · rw [show D ++ [a, b] = (D ++ [a]) ++ [b] from by simp]
    rw [List.dropLast_concat]
    simp
  refine ⟨?_, by simp, ?_⟩
  · simp only [List.length_append, List.length_cons, List.length_nil]
    omega
  · have hi : (V ++ [v, v]).length - 2 = V.length := by
      simp only [List.length_append, List.length_cons, List.length_nil]
      omega
    rw [hi, List.getElem?_append_right (by omega)]
    simp

/-- Unfolding a successful step of `run_adds`. -/
theorem run_adds_cons_ok {α β : Type} [DecidableEq β]
    (D : List α) (V : List β) (ob : α × β) (rest : List (α × β))
    (D' : List α) (V' : List β)
    (h : add_data D V ob.1 ob.2 = .ok (D', V')) :
    run_adds D V (ob :: rest) = run_adds D' V' rest := by
  simp only [run_adds]
  rw [h]
  rfl

/-- After the series ends in a pair of equal values `v`, any further run of
observations of `v` only moves the final timestamp to the last observed one. -/
theorem run_adds_flat {α β : Type} [DecidableEq β] (v : β) (ts : List α) :
    ∀ (D : List α) (V : List β) (a b : α), D.length = V.length →
      run_adds (D ++ [a, b]) (V ++ [v, v]) (ts.map (fun t => (t, v))) =
        .ok (D ++ [a, ts.getLastD b], V ++ [v, v]) := by
  induction ts with
  | nil =>
      intro D V a b h
      simp [run_adds]
  | cons t ts ih =>
      intro D V a b h
      simp only [List.map_cons]
      rw [run_adds_cons_ok (D ++ [a, b]) (V ++ [v, v]) (t, v)
        (ts.map (fun t => (t, v))) (D ++ [a, t]) (V ++ [v, v])
        (add_data_flat_step D V a b t v h)]
      rw [ih D V a t h]
      rw [List.getLastD_cons]

/-- Claim C1: idempotent plateau.  Starting from any equal-length state whose
last value is not `v` (so the incoming run of `v`-observations is maximal),
feeding the same value `v` at timestamps `t1, t2, rest...` (N ≥ 2 times)
appends exactly two points carrying the first timestamp and the last
timestamp of the run; every further observation of `v` only overwrites the
final timestamp and never grows the sequences. -/
theorem run_adds_plateau {α β : Type} [DecidableEq β]
    (D : List α) (V : List β) (v : β) (t1 t2 : α) (rest : List α)
    (hlen : D.length = V.length) (hne : V.getLast? ≠ some v) :
    run_adds D V ((t1 :: t2 :: rest).map (fun t => (t, v))) =
      .ok (D ++ [t1, rest.getLastD t2], V ++ [v, v]) := by
  simp only [List.map_cons]
  rw [run_adds_cons_ok D V (t1, v) ((t2, v) :: rest.map (fun t => (t, v)))
    (D ++ [t1]) (V ++ [v]) (add_data_append_of_last_ne D V t1 v hlen hne)]
  rw [run_adds_cons_ok (D ++ [t1]) (V ++ [v]) (t2, v)
    (rest.map (fun t => (t, v))) (D ++ [t1, t2]) (V ++ [v, v])
    (add_data_append_second D V t1 t2 v hlen hne)]
  exact run_adds_flat v rest D V t1 t2 hlen

/-- Witness for C1: three observations of the value 5 on the empty state
leave exactly the two points (1, 5) and (3, 5). -/
theorem run_adds_plateau_witness :
    run_adds ([] : List Nat) ([] : List Int) [(1, 5), (2, 5), (3, 5)] =
      .ok ([1, 3], [5, 5]) := by
  have h := run_adds_plateau ([] : List Nat) ([] : List Int) 5 1 2 [3]
    rfl (by decide)
  simpa using h

/-- Claim C2: change property.  If the new value differs from the last stored
value, or fewer than two points exist, `add_data` appends the pair as a new
point: both sequences grow by exactly one element, never merged. -/
theorem add_data_change {α β : Type} [DecidableEq β]
    (D : List α) (V : List β) (t : α) (v : β)
    (hlen : D.length = V.length)
    (h : V.getLast? ≠ some v ∨ D.length ≤ 1) :
    add_data D V t v = .ok (D ++ [t], V ++ [v]) := by
  unfold add_data
  rw [if_neg (by omega)]
  rw [if_neg]
  rintro ⟨h1, h2, -⟩
  rcases h with h | h
  · exact h h2
  · omega

/-- Witness for C2: a changed value (7 after 5) is appended. -/
theorem add_data_change_witness :
    add_data [0] [(5 : Int)] 1 7 = .ok ([0, 1], [5, 7]) :=
  add_data_change [0] [(5 : Int)] 1 7 rfl (Or.inl (by decide))

/-- A successful `add_data` call always returns equal-length sequences
(a call on mismatched sequences would have aborted instead). -/
theorem add_data_ok_length {α β : Type} [DecidableEq β]
    (D : List α) (V : List β) (t : α) (v : β) (D' : List α) (V' : List β)
    (h : add_data D V t v = .ok (D', V')) : D'.length = V'.length := by
  unfold add_data at h
  by_cases hl : D.length = V.length
  · rw [if_neg (by omega)] at h
    split at h
    · rename_i hc
      obtain ⟨rfl, rfl⟩ : D.dropLast ++ [t] = D' ∧ V = V' := by
        simpa using h
      simp [List.length_dropLast]
      omega
    · obtain ⟨rfl, rfl⟩ : D ++ [t] = D' ∧ V ++ [v] = V' := by
        simpa using h
      simp [hl]
  · rw [if_pos hl] at h
    exact absurd h (by simp)

/-- Claim C3: length invariant.  If the two sequences have equal length before
a run of `add_data` calls, any state they reach has equal lengths; in
particular the invariant holds after every observation of any sequence of
observations. -/
theorem run_adds_length_invariant {α β : Type} [DecidableEq β]
    (obs : List (α × β)) :
    ∀ (D : List α) (V : List β), D.length = V.length →
      ∀ (D' : List α) (V' : List β),
        run_adds D V obs = .ok (D', V') → D'.length = V'.length := by
  induction obs with
  | nil =>
      intro D V h D' V' hr
      obtain ⟨rfl, rfl⟩ : D = D' ∧ V = V' := by
        simpa [run_adds] using hr
      exact h
  | cons ob rest ih =>
      intro D V h D' V' hr
      simp only [run_adds] at hr
      cases hadd : add_data D V ob.1 ob.2 with
      | error e => rw [hadd] at hr; exact absurd hr (by simp [Except.bind])
      | ok p =>
          rw [hadd] at hr
          exact ih p.1 p.2 (add_data_ok_length D V ob.1 ob.2 p.1 p.2 hadd)
            D' V' hr

/-- Witness for C3: a concrete three-observation run preserves the length
invariant. -/
theorem run_adds_length_invariant_witness :
    ([1, 3] : List Nat).length = ([5, 5] : List Int).length :=
  run_adds_length_invariant [(1, 5), (2, 5), (3, 5)] [] [] rfl
    [1, 3] [5, 5] (by rfl)

/-- Claim C4: precondition violation is fatal.  With mismatched lengths,
`add_data` reports the internal-consistency error and terminates with exit
status 1; no updated sequences are produced. -/
theorem add_data_mismatch_fatal {α β : Type} [DecidableEq β]
    (D : List α) (V : List β) (t : α) (v : β)
    (h : D.length ≠ V.length) :
    add_data D V t v = .error ("internal error", 1) := by
  unfold add_data
  rw [if_pos h]

/-- Witness for C4: calling with one date and no value aborts. -/
theorem add_data_mismatch_fatal_witness :
    add_data [0] ([] : List Int) 1 2 = .error ("internal error", 1) :=
  add_data_mismatch_fatal [0] ([] : List Int) 1 2 (by decide)

/-! ## The collector main loop (src/matrixcounter.py lines 228-260)

Room records are `{'name': ..., 'counts': [[], []]}`; the rooms dictionary is
modelled as an association list with Python-dict semantics (lookup of the
first matching key; update in place, insertion at the end).  A per-room HTTP
fetch is modelled by its outcome: the room's joined members together with a
flag for the status code of the `joined_members` request, and the result of
the `m.room.name` request (`none` for a non-200 response). -/

/-- A room record: `{'name': name, 'counts': [dates, values]}`. -/
structure RoomRec where
  name : String
  dates : List String
  values : List Int
deriving DecidableEq

/-- Outcome of the per-room HTTP requests for one joined room. -/
structure RoomFetch where
  room_id : String
  members : Finset String
  members_ok : Bool
  name : Option String
deriving DecidableEq

/-- Python-dict lookup on an association list. -/
def dictLookup {β : Type} (d : List (String × β)) (k : String) : Option β :=
  match d with
  | [] => none
  | (k', v) :: rest => if k' = k then some v else dictLookup rest k

/-- Python-dict assignment `d[k] = v`: update in place if the key is
present, else append at the end. -/
def dictSet {β : Type} (d : List (String × β)) (k : String) (v : β) :
    List (String × β) :=
  match d with
  | [] => [(k, v)]
  | (k', v') :: rest =>
      if k' = k then (k, v) :: rest else (k', v') :: dictSet rest k v

/-- In-memory collector state: `status['rooms']` and the accumulator
`unique_users` (line 236). -/
structure CollState where
  rooms : List (String × RoomRec)
  unique_users : Finset String
deriving DecidableEq

/-- The tail of a processed loop iteration (lines 252-255): record
`len(users) - 1` on the room's series via `add_data`, store the updated
record back, and fold the members into `unique_users`. -/
def update_room (isodate : String) (st : CollState) (rid : String)
    (users : Finset String) (r : RoomRec) : Except (String × Nat) CollState :=
  match add_data r.dates r.values isodate ((users.card : Int) - 1) with
  | .error e => .error e
  | .ok p =>
      .ok { rooms := dictSet st.rooms rid ⟨r.name, p.1, p.2⟩,
            unique_users := st.unique_users ∪ users }

/-- One iteration of the room loop (lines 238-255).  A failed
`joined_members` request only prints and moves on; a room seen for the first
time whose name request fails is skipped (`continue`); otherwise the room
(a fresh `{'name': room_name, 'counts': [[], []]}` record if new) is updated
through `update_room`.  The `room_info[room_id] = {'users': users}` write on
line 244 populates a dictionary that is never read afterwards and is
omitted. -/
def process_room (isodate : String) (st : CollState) (f : RoomFetch) :
    Except (String × Nat) CollState :=
  if f.members_ok = false then .ok st
  else
    match dictLookup st.rooms f.room_id with
    | some r => update_room isodate st f.room_id f.members r
    | none =>
        match f.name with
        | none => .ok st
        | some nm => update_room isodate st f.room_id f.members ⟨nm, [], []⟩

/-- The room loop over the `joined_rooms` list. -/
def process_rooms (isodate : String) (st : CollState) :
    List RoomFetch → Except (String × Nat) CollState
  | [] => .ok st
  | f :: fs =>
      Except.bind (process_room isodate st f)
        (fun st' => process_rooms isodate st' fs)

/-- The record of the synthetic aggregate room: the stored one, or the fresh
`{'name': 'Total', 'counts': [[], []]}` inserted on line 257 when absent. -/
def totalRec (st : CollState) : RoomRec :=
  (dictLookup st.rooms "total").getD
    { name := "Total", dates := [], values := [] }

/-- The synthetic aggregate room update (lines 256-260): insert a fresh
record if absent, then record `len(unique_users) - 1`. -/
def total_step (isodate : String) (st : CollState) :
    Except (String × Nat) CollState :=
  match add_data (totalRec st).dates (totalRec st).values isodate
      ((st.unique_users.card : Int) - 1) with
  | .error e => .error e
  | .ok p =>
      .ok { st with
            rooms := dictSet st.rooms "total" ⟨(totalRec st).name, p.1, p.2⟩ }

/-- The whole collection phase of a run: the room loop starting from an empty
`unique_users` accumulator, followed by the total update. -/
def collect (isodate : String) (rooms : List (String × RoomRec))
    (fs : List RoomFetch) : Except (String × Nat) CollState :=
  Except.bind (process_rooms isodate { rooms := rooms, unique_users := ∅ } fs)
    (fun st => total_step isodate st)

/-- The last recorded value of the synthetic total series, if any. -/
def totalLast (st : CollState) : Option Int :=
  match dictLookup st.rooms "total" with
  | none => none
  | some r => r.values.getLast?

/-- The union of the member sets of a list of rooms (the quantity the spec
describes for the `total` series). -/
def unionMembers : List RoomFetch → Finset String
  | [] => ∅
  | f :: fs => f.members ∪ unionMembers fs

/-- A fetched room is processed by the loop body (rather than skipped) iff
its member request succeeded and it is either already tracked or its name
request succeeded. -/
def processedRoom (rooms : List (String × RoomRec)) (f : RoomFetch) : Bool :=
  f.members_ok && ((dictLookup rooms f.room_id).isSome || f.name.isSome)

/-! Dictionary lemmas. -/

/-- `d[k] = v` does not affect lookups of other keys. -/
theorem dictLookup_dictSet_ne {β : Type} (d : List (String × β))
    (k k' : String) (v : β) (h : k' ≠ k) :
    dictLookup (dictSet d k v) k' = dictLookup d k' := by
  induction d with
  | nil =>
      simp only [dictSet, dictLookup]
      rw [if_neg (fun hh => h hh.symm)]
  | cons p rest ih =>
      obtain ⟨a, b⟩ := p
      by_cases hak : a = k
      · subst hak
        simp only [dictSet, if_pos rfl, dictLookup]
        rw [if_neg (fun hh => h hh.symm), if_neg (fun hh => h hh.symm)]
      · simp only [dictSet, if_neg hak, dictLookup]
        by_cases hak' : a = k'
        · rw [if_pos hak', if_pos hak']
        · rw [if_neg hak', if_neg hak']
          exact ih

/-- After `d[k] = v`, looking up `k` yields `v`. -/
theorem dictLookup_dictSet_self {β : Type} (d : List (String × β))
    (k : String) (v : β) :
    dictLookup (dictSet d k v) k = some v := by
  induction d with
  | nil => simp [dictSet, dictLookup]
  | cons p rest ih =>
      obtain ⟨a, b⟩ := p
      by_cases hak : a = k
      · simp [dictSet, if_pos hak, dictLookup]
      · simp only [dictSet, if_neg hak, dictLookup, if_neg hak]
        exact ih

/-- `dictSet` preserves a pointwise property of the stored values. -/
theorem dictSet_forall {β : Type} (Q : β → Prop) (d : List (String × β))
    (k : String) (v : β) (hd : ∀ p ∈ d, Q p.2) (hv : Q v) :
    ∀ p ∈ dictSet d k v, Q p.2 := by
  induction d with
  | nil =>
      intro p hp
      rw [List.mem_singleton.mp hp]
      exact hv
  | cons q rest ih =>
      obtain ⟨a, b⟩ := q
      by_cases hak : a = k
      · simp only [dictSet, if_pos hak]
        intro p hp
        rcases List.mem_cons.mp hp with h | h
        · rw [h]; exact hv
        · exact hd p (List.mem_cons_of_mem _ h)
      · simp only [dictSet, if_neg hak]
        intro p hp
        rcases List.mem_cons.mp hp with h | h
        · rw [h]; exact hd (a, b) (List.mem_cons_self _ _)
        · exact ih (fun q hq => hd q (List.mem_cons_of_mem _ hq)) p h

/-- A successful lookup comes from an entry of the dictionary. -/
theorem dictLookup_mem {β : Type} (d : List (String × β)) (k : String) (v : β)
    (h : dictLookup d k = some v) : (k, v) ∈ d := by
  induction d with
  | nil => exact absurd h (by simp [dictLookup])
  | cons p rest ih =>
      obtain ⟨a, b⟩ := p
      rw [dictLookup] at h
      by_cases hak : a = k
      · rw [if_pos hak] at h
        subst hak
        rw [Option.some_inj.mp h]
        exact List.mem_cons_self _ _
      · rw [if_neg hak] at h
        exact List.mem_cons_of_mem _ (ih h)

/-! Behaviour of the loop body. -/

/-- On equal-length sequences, `add_data` never aborts. -/
theorem add_data_ok_of_eq_length {α β : Type} [DecidableEq β]
    (D : List α) (V : List β) (t : α) (v : β) (hlen : D.length = V.length) :
    ∃ p, add_data D V t v = .ok p := by
  unfold add_data
  rw [if_neg (by omega)]
  split
  · exact ⟨_, rfl⟩
  · exact ⟨_, rfl⟩

/-- A successful `add_data` call leaves the new value as the last stored
value (either it was appended, or the last two stored values already equal
it). -/
theorem add_data_ok_last {α β : Type} [DecidableEq β]
    (D : List α) (V : List β) (t : α) (v : β) (D' : List α) (V' : List β)
    (h : add_data D V t v = .ok (D', V')) : V'.getLast? = some v := by
  unfold add_data at h
  by_cases hl : D.length = V.length
  · rw [if_neg (by omega)] at h
    split at h
    · rename_i hc
      obtain ⟨rfl, rfl⟩ : D.dropLast ++ [t] = D' ∧ V = V' := by
        simpa using h
      exact hc.2.1
    · obtain ⟨rfl, rfl⟩ : D ++ [t] = D' ∧ V ++ [v] = V' := by
        simpa using h
      exact List.getLast?_concat V
  · rw [if_pos hl] at h
    exact absurd h (by simp)

/-- Successful outcome of `update_room` on an equal-length record. -/
theorem update_room_ok (isodate : String) (st : CollState) (rid : String)
    (users : Finset String) (r : RoomRec)
    (hrwf : r.dates.length = r.values.length) :
    ∃ r1 : RoomRec,
      update_room isodate st rid users r =
        .ok { rooms := dictSet st.rooms rid r1,
              unique_users := st.unique_users ∪ users } ∧
      r1.dates.length = r1.values.length ∧
      r1.values.getLast? = some ((users.card : Int) - 1) := by
  obtain ⟨p, hp⟩ := add_data_ok_of_eq_length r.dates r.values isodate
    ((users.card : Int) - 1) hrwf
  refine ⟨⟨r.name, p.1, p.2⟩, ?_, ?_, ?_⟩
  · unfold update_room
    rw [hp]
  · exact add_data_ok_length r.dates r.values isodate _ p.1 p.2 hp
  · exact add_data_ok_last r.dates r.values isodate _ p.1 p.2 hp

/-- A room whose loop iteration is skipped (failed member fetch, or new and
nameless) leaves the collector state untouched. -/
theorem process_room_skipped (isodate : String) (st : CollState)
    (f : RoomFetch) (hp : processedRoom st.rooms f = false) :
    process_room isodate st f = .ok st := by
  unfold processedRoom at hp
  unfold process_room
  by_cases hmo : f.members_ok
  · rw [hmo] at hp
    simp only [Bool.true_and, Bool.or_eq_false_iff] at hp
    have h1 : dictLookup st.rooms f.room_id = none :=
      Option.not_isSome_iff_eq_none.mp (by simp [hp.1])
    have h2 : f.name = none :=
      Option.not_isSome_iff_eq_none.mp (by simp [hp.2])
    rw [if_neg (by simp [hmo]), h1, h2]
  · rw [if_pos (by simp [Bool.eq_false_iff.mpr hmo])]

/-- A room whose loop iteration is processed updates exactly its own entry
(with equal-length series ending in `|members| - 1`) and adds its members to
`unique_users`. -/
theorem process_room_processed (isodate : String) (st : CollState)
    (f : RoomFetch) (hp : processedRoom st.rooms f = true)
    (hwf : ∀ q ∈ st.rooms, q.2.dates.length = q.2.values.length) :
    ∃ r1 : RoomRec,
      process_room isodate st f =
        .ok { rooms := dictSet st.rooms f.room_id r1,
              unique_users := st.unique_users ∪ f.members } ∧
      r1.dates.length = r1.values.length ∧
      r1.values.getLast? = some ((f.members.card : Int) - 1) := by
  unfold processedRoom at hp
  simp only [Bool.and_eq_true, Bool.or_eq_true] at hp
  obtain ⟨hmo, htr⟩ := hp
  unfold process_room
  rw [if_neg (by simp [hmo])]
  cases hlk : dictLookup st.rooms f.room_id with
  | some r =>
      have hrwf : r.dates.length = r.values.length :=
        hwf (f.room_id, r) (dictLookup_mem st.rooms f.room_id r hlk)
      obtain ⟨r1, hup, h1, h2⟩ :=
        update_room_ok isodate st f.room_id f.members r hrwf
      exact ⟨r1, hup, h1, h2⟩
  | none =>
      rcases htr with htr | htr
      · rw [hlk] at htr
        exact absurd htr (by simp)
      · cases hnm : f.name with
        | none => rw [hnm] at htr; exact absurd htr (by simp)
        | some nm =>
            obtain ⟨r1, hup, h1, h2⟩ :=
              update_room_ok isodate st f.room_id f.members ⟨nm, [], []⟩ rfl
            exact ⟨r1, hup, h1, h2⟩

/-- Unfolding a successful step of the room loop. -/
theorem process_rooms_cons_ok (isodate : String) (st st₂ : CollState)
    (f : RoomFetch) (fs : List RoomFetch)
    (h : process_room isodate st f = .ok st₂) :
    process_rooms isodate st (f :: fs) = process_rooms isodate st₂ fs := by
  simp only [process_rooms]
  rw [h]
  rfl

/-- Summary of the room loop: starting from an equal-length state, and with
pairwise-distinct fetched room ids, the loop succeeds; it adds to
`unique_users` exactly the union of the member sets of the processed fetches
(member request succeeded, and the room was already tracked or its name
request succeeded), keeps every stored series equal-length, and leaves the
entries of untouched keys unchanged. -/
theorem process_rooms_spec (isodate : String) (fs : List RoomFetch) :
    ∀ st : CollState,
      (∀ q ∈ st.rooms, q.2.dates.length = q.2.values.length) →
      (fs.map RoomFetch.room_id).Nodup →
      ∃ st', process_rooms isodate st fs = .ok st' ∧
        st'.unique_users = st.unique_users ∪
          unionMembers (fs.filter (fun g => processedRoom st.rooms g)) ∧
        (∀ q ∈ st'.rooms, q.2.dates.length = q.2.values.length) ∧
        (∀ k, k ∉ fs.map RoomFetch.room_id →
          dictLookup st'.rooms k = dictLookup st.rooms k) := by
  induction fs with
  | nil =>
      intro st hwf _
      exact ⟨st, rfl, by simp [unionMembers], hwf, fun k _ => rfl⟩
  | cons f fs ih =>
      intro st hwf hnd
      rw [List.map_cons, List.nodup_cons] at hnd
      obtain ⟨hfid, hnd'⟩ := hnd
      by_cases hp : processedRoom st.rooms f = true
      · obtain ⟨r1, hpr, hr1, -⟩ := process_room_processed isodate st f hp hwf
        have hwf₂ : ∀ q ∈ (dictSet st.rooms f.room_id r1),
            q.2.dates.length = q.2.values.length :=
          dictSet_forall (fun r => r.dates.length = r.values.length)
            st.rooms f.room_id r1 hwf hr1
        obtain ⟨st', hrun, huu, hwf', hpres⟩ :=
          ih { rooms := dictSet st.rooms f.room_id r1,
               unique_users := st.unique_users ∪ f.members } hwf₂ hnd'
        have hlook : ∀ g ∈ fs, dictLookup (dictSet st.rooms f.room_id r1)
            g.room_id = dictLookup st.rooms g.room_id := by
          intro g hg
          have : g.room_id ≠ f.room_id := by
            intro he
            exact hfid (he ▸ List.mem_map_of_mem RoomFetch.room_id hg)
          exact dictLookup_dictSet_ne st.rooms f.room_id g.room_id r1 this
        have hfilter : fs.filter
              (fun g => processedRoom (dictSet st.rooms f.room_id r1) g) =
            fs.filter (fun g => processedRoom st.rooms g) := by
          apply List.filter_congr
          intro g hg
          unfold processedRoom
          rw [hlook g hg]
        refine ⟨st', ?_, ?_, hwf', ?_⟩
        · rw [process_rooms_cons_ok isodate st _ f fs hpr]
          exact hrun
        · rw [huu]
          simp only [List.filter_cons, hp, if_pos]
          rw [hfilter, unionMembers, Finset.union_assoc]
        · intro k hk
          rw [List.map_cons, List.mem_cons] at hk
          push_neg at hk
          rw [hpres k hk.2]
          exact dictLookup_dictSet_ne st.rooms f.room_id k r1 hk.1
      · have hp' : processedRoom st.rooms f = false := by
          simpa using hp
        have hpr := process_room_skipped isodate st f hp'
        obtain ⟨st', hrun, huu, hwf', hpres⟩ := ih st hwf hnd'
        refine ⟨st', ?_, ?_, hwf', ?_⟩
        · rw [process_rooms_cons_ok isodate st st f fs hpr]
          exact hrun
        · rw [huu]
          simp only [List.filter_cons, hp']
          rfl
        · intro k hk
          rw [List.map_cons, List.mem_cons] at hk
          push_neg at hk
          exact hpres k hk.2

/-- Summary of the total update: on an equal-length state it succeeds and
leaves `len(unique_users) - 1` as the last value of the total series. -/
theorem total_step_spec (isodate : String) (st : CollState)
    (hwf : ∀ q ∈ st.rooms, q.2.dates.length = q.2.values.length) :
    ∃ st', total_step isodate st = .ok st' ∧
      totalLast st' = some ((st.unique_users.card : Int) - 1) := by
  have hr0 : (totalRec st).dates.length = (totalRec st).values.length := by
    unfold totalRec
    cases hlk : dictLookup st.rooms "total" with
    | none => rfl
    | some r =>
        simpa using hwf ("total", r) (dictLookup_mem st.rooms "total" r hlk)
  obtain ⟨p, hp⟩ := add_data_ok_of_eq_length (totalRec st).dates
    (totalRec st).values isodate ((st.unique_users.card : Int) - 1) hr0
  refine ⟨{ st with
    rooms := dictSet st.rooms "total" ⟨(totalRec st).name, p.1, p.2⟩ }, ?_, ?_⟩
  · unfold total_step
    rw [hp]
  · unfold totalLast
    simp only [dictLookup_dictSet_self]
    exact add_data_ok_last (totalRec st).dates (totalRec st).values isodate
      _ p.1 p.2 hp

/-- The rooms dictionary a successful `update_room` returns is a `dictSet`
of its own room id only. -/
theorem update_room_ok_rooms (isodate : String) (st : CollState)
    (rid : String) (users : Finset String) (r : RoomRec) (st₂ : CollState)
    (h : update_room isodate st rid users r = .ok st₂) :
    ∃ r1, st₂.rooms = dictSet st.rooms rid r1 := by
  unfold update_room at h
  cases hadd : add_data r.dates r.values isodate ((users.card : Int) - 1) with
  | error e => rw [hadd] at h; cases h
  | ok p =>
      rw [hadd] at h
      exact ⟨⟨r.name, p.1, p.2⟩, by rw [← Except.ok.inj h]⟩

/-- One loop iteration never starts tracking a room other than its own, and
never starts tracking its own room when the room's name lookup failed. -/
theorem process_room_keeps_untracked (isodate : String) (rid : String)
    (st st₂ : CollState) (f : RoomFetch)
    (hpr : process_room isodate st f = .ok st₂)
    (h0 : dictLookup st.rooms rid = none)
    (hn : f.room_id = rid → f.name = none) :
    dictLookup st₂.rooms rid = none := by
  unfold process_room at hpr
  by_cases hmo : f.members_ok
  · rw [if_neg (by simp [hmo])] at hpr
    cases hlk : dictLookup st.rooms f.room_id with
    | some r =>
        rw [hlk] at hpr
        have hne : rid ≠ f.room_id := by
          intro he
          rw [he] at h0
          rw [h0] at hlk
          cases hlk
        obtain ⟨r1, hrm⟩ := update_room_ok_rooms isodate st f.room_id
          f.members r st₂ hpr
        rw [hrm, dictLookup_dictSet_ne st.rooms f.room_id rid r1 hne]
        exact h0
    | none =>
        rw [hlk] at hpr
        cases hnm : f.name with
        | none =>
            rw [hnm] at hpr
            rw [← Except.ok.inj hpr]
            exact h0
        | some nm =>
            rw [hnm] at hpr
            have hne : rid ≠ f.room_id := by
              intro he
              rw [hn he.symm] at hnm
              cases hnm
            obtain ⟨r1, hrm⟩ := update_room_ok_rooms isodate st f.room_id
              f.members ⟨nm, [], []⟩ st₂ hpr
            rw [hrm, dictLookup_dictSet_ne st.rooms f.room_id rid r1 hne]
            exact h0
  · rw [if_pos (by simp [Bool.eq_false_iff.mpr hmo])] at hpr
    rw [← Except.ok.inj hpr]
    exact h0

/-- Claim C9: nameless-room skip.  A room that is not yet tracked and whose
display-name lookup yields no name on every encounter in the run is never
added to the tracked room set (its id has no record after the loop, hence no
data point is recorded for it in that run). -/
theorem nameless_new_room_never_tracked (isodate : String) (rid : String)
    (fs : List RoomFetch) :
    ∀ st st' : CollState,
      dictLookup st.rooms rid = none →
      (∀ f ∈ fs, f.room_id = rid → f.name = none) →
      process_rooms isodate st fs = .ok st' →
      dictLookup st'.rooms rid = none := by
  induction fs with
  | nil =>
      intro st st' h0 _ hrun
      obtain rfl : st = st' := by simpa [process_rooms] using hrun
      exact h0
  | cons f fs ih =>
      intro st st' h0 hf hrun
      simp only [process_rooms] at hrun
      cases hpr : process_room isodate st f with
      | error e =>
          rw [hpr] at hrun
          exact absurd hrun (by simp [Except.bind])
      | ok st₂ =>
          rw [hpr] at hrun
          refine ih st₂ st' ?_
            (fun g hg => hf g (List.mem_cons_of_mem _ hg)) hrun
          exact process_room_keeps_untracked isodate rid st st₂ f hpr h0
            (hf f (List.mem_cons_self _ _))

/-- Witness for C9: a fresh nameless room stays untracked. -/
theorem nameless_new_room_never_tracked_witness :
    dictLookup (({ rooms := [], unique_users := ∅ } : CollState)).rooms
      "!n:x" = none :=
  nameless_new_room_never_tracked "t0" "!n:x"
    [⟨"!n:x", {"u1"}, true, none⟩]
    { rooms := [], unique_users := ∅ } { rooms := [], unique_users := ∅ }
    rfl (by decide) (by rfl)

/-- If every fetched room is skipped, the room loop leaves the collector
state untouched. -/
theorem process_rooms_all_skipped (isodate : String) (fs : List RoomFetch) :
    ∀ st : CollState,
      (∀ f ∈ fs, processedRoom st.rooms f = false) →
      process_rooms isodate st fs = .ok st := by
  induction fs with
  | nil => intro st _; rfl
  | cons f fs ih =>
      intro st h
      rw [process_rooms_cons_ok isodate st st f fs
        (process_room_skipped isodate st f (h f (List.mem_cons_self _ _)))]
      exact ih st (fun g hg => h g (List.mem_cons_of_mem _ hg))

/-- Claim C10: if no member identifiers are accumulated (every fetched room
is skipped — member fetch failed, or new and nameless — or there are no
rooms at all), the run still records a point for the synthetic total series
with the negative value `-1`. -/
theorem collect_all_skipped_total_negative (isodate : String)
    (R : List (String × RoomRec)) (fs : List RoomFetch)
    (hwf : ∀ q ∈ R, q.2.dates.length = q.2.values.length)
    (hskip : ∀ f ∈ fs, f.members_ok = false ∨
      (dictLookup R f.room_id = none ∧ f.name = none)) :
    ∃ st', collect isodate R fs = .ok st' ∧ totalLast st' = some (-1) := by
  have hrun : process_rooms isodate { rooms := R, unique_users := ∅ } fs =
      .ok { rooms := R, unique_users := ∅ } := by
    apply process_rooms_all_skipped
    intro f hfm
    rcases hskip f hfm with h | ⟨h1, h2⟩
    · simp [processedRoom, h]
    · simp [processedRoom, h1, h2]
  obtain ⟨st', h2, hlast⟩ :=
    total_step_spec isodate { rooms := R, unique_users := ∅ } hwf
  refine ⟨st', ?_, ?_⟩
  · unfold collect
    rw [hrun]
    exact h2
  · rw [hlast]
    norm_num

/-- Witness for C10: one room whose member fetch failed still yields a
recorded total of -1. -/
theorem collect_all_skipped_total_negative_witness :
    ∃ st', collect "t0" [] [⟨"!r:x", {"u1"}, false, some "R"⟩] = .ok st' ∧
      totalLast st' = some (-1) :=
  collect_all_skipped_total_negative "t0" []
    [⟨"!r:x", {"u1"}, false, some "R"⟩] (by simp) (by decide)

/-- The run's reported total value: the last value of the total series after
a successful collection phase. -/
def collectTotalLast (isodate : String) (R : List (String × RoomRec))
    (fs : List RoomFetch) : Option Int :=
  match collect isodate R fs with
  | .error _ => none
  | .ok st => totalLast st

/-- Counterexample to C5 as stated: with a single joined room of two members
whose `joined_members` request fails, the run records -1 for the total
series, not the cardinality of the union of member identifiers across all
joined rooms minus 1 (which is 1): skipped rooms never contribute their
members to `unique_users`. -/
theorem collect_total_union_counterexample :
    collectTotalLast "t0" [] [⟨"!r:x", {"u1", "u2"}, false, some "R"⟩] =
        some (-1) ∧
      ((unionMembers [⟨"!r:x", {"u1", "u2"}, false, some "R"⟩]).card : Int) - 1
        = 1 ∧
      some (-1 : Int) ≠ some (1 : Int) :=
  ⟨by decide, by decide, by decide⟩

/-- Claim C5 (amended): in every run, the value recorded for the synthetic
"total" series equals the cardinality of the union of member identifiers
across the rooms that the loop actually processed — those whose member
request succeeded and that were already tracked or had a name — minus 1
(excluding the authenticating account). -/
theorem collect_total_processed_union (isodate : String)
    (R : List (String × RoomRec)) (fs : List RoomFetch)
    (hwf : ∀ q ∈ R, q.2.dates.length = q.2.values.length)
    (hnd : (fs.map RoomFetch.room_id).Nodup) :
    ∃ st', collect isodate R fs = .ok st' ∧
      totalLast st' = some
        (((unionMembers (fs.filter (fun f => processedRoom R f))).card : Int)
          - 1) := by
  obtain ⟨st₁, h1, huu, hwf₁, -⟩ :=
    process_rooms_spec isodate fs { rooms := R, unique_users := ∅ } hwf hnd
  obtain ⟨st₂, h2, hlast⟩ := total_step_spec isodate st₁ hwf₁
  refine ⟨st₂, ?_, ?_⟩
  · unfold collect
    rw [h1]
    exact h2
  · rw [hlast, huu]
    simp

/-- Witness for the amended C5: a run with one named room of two members and
one nameless new room records 2 - 1 = 1 as the total. -/
theorem collect_total_processed_union_witness :
    ∃ st', collect "t0" []
        [⟨"!a:x", {"u1", "u2"}, true, some "A"⟩,
         ⟨"!b:x", {"u3"}, true, none⟩] = .ok st' ∧
      totalLast st' = some 1 := by
  have h := collect_total_processed_union "t0" []
    [⟨"!a:x", {"u1", "u2"}, true, some "A"⟩, ⟨"!b:x", {"u3"}, true, none⟩]
    (by simp) (by decide)
  have he : (((unionMembers
      (([⟨"!a:x", {"u1", "u2"}, true, some "A"⟩,
         ⟨"!b:x", {"u3"}, true, none⟩] : List RoomFetch).filter
        (fun f => processedRoom [] f))).card : Int) - 1) = 1 := by decide
  rw [he] at h
  exact h

/-! ## The save phase (src/matrixcounter.py lines 268-284)

The status-file write (lines 270-278) is wrapped in try/except: a failure is
printed and swallowed, and execution continues.  The counter-file write
(lines 282-284) is a bare `with open(...)` block with no handler: a failure
there propagates as an uncaught exception and terminates the process with a
nonzero status.  The model takes, for each file, whether its write would
succeed, and reports what the code does. -/

/-- Outcome of the save phase. -/
structure SaveResult where
  status_attempted : Bool
  status_error_reported : Bool
  counter_attempted : Bool
  completed : Bool
deriving DecidableEq

/-- Shallow embedding of the save phase: the status write is attempted
first; its failure is only reported (printed).  The counter write is then
attempted; its failure aborts the run (uncaught exception), so the run
completes exactly when the counter write succeeds. -/
def save_files (status_ok counter_ok : Bool) : SaveResult :=
  { status_attempted := true
    status_error_reported := !status_ok
    counter_attempted := true
    completed := counter_ok }

/-- Counterexample to C6 as stated: when only the counter-file write fails,
the run does not complete — the counter write is not guarded by any handler,
so its failure is fatal rather than merely reported. -/
theorem save_files_counter_fatal_counterexample :
    (save_files true false).counter_attempted = true ∧
      (save_files true false).completed = false :=
  ⟨rfl, rfl⟩

/-- Claim C6 (amended): both write attempts are always made; a status-file
write failure is reported and is non-fatal (the counter write still follows
and the run completes whenever it succeeds); a counter-file write failure
terminates the run. -/
theorem save_files_spec (status_ok counter_ok : Bool) :
    (save_files status_ok counter_ok).status_attempted = true ∧
      (save_files status_ok counter_ok).counter_attempted = true ∧
      (save_files status_ok counter_ok).status_error_reported = !status_ok ∧
      (save_files status_ok counter_ok).completed = counter_ok :=
  ⟨rfl, rfl, rfl, rfl⟩

/-! ## JSON values and the status-file loader (lines 108-130) -/

/-- A JSON value, the shape of `json.load`/`json.dump` data.  Numbers are
integers (the only numbers this program produces). -/
inductive JValue where
  | null : JValue
  | bool : Bool → JValue
  | num : Int → JValue
  | str : String → JValue
  | arr : List JValue → JValue
  | obj : List (String × JValue) → JValue

/-- `type(x) == dict` check. -/
def JValue.isObj : JValue → Bool
  | .obj _ => true
  | _ => false

/-- `type(x) == str` check. -/
def JValue.isStr : JValue → Bool
  | .str _ => true
  | _ => false

/-- `x[k]` on a JSON object (with Python-dict lookup). -/
def jGet (j : JValue) (k : String) : Option JValue :=
  match j with
  | .obj kvs => dictLookup kvs k
  | _ => none

/-- `k in x` on a JSON object. -/
def jHasKey (j : JValue) (k : String) : Bool :=
  (jGet j k).isSome

/-- `x[k] = v` on a JSON object (other values are left unchanged — the
loader only assigns into values already checked to be dicts). -/
def jSet (j : JValue) (k : String) (v : JValue) : JValue :=
  match j with
  | .obj kvs => .obj (dictSet kvs k v)
  | _ => j

/-- `x.keys()` on a JSON object. -/
def jKeys : JValue → List String
  | .obj kvs => kvs.map Prod.fst
  | _ => []

/-- The template `status_empty` (lines 36-39). -/
def status_empty : JValue :=
  .obj [("matrix_access_tokens", .obj []), ("rooms", .obj [])]

/-- Lines 112-120: the parse result (`None`, i.e. not a dict, when the file
could not be opened or parsed) is replaced by the template unless it is a
dict. -/
def ls_dict_check (input : Option JValue) : JValue :=
  match input with
  | some j => if j.isObj then j else status_empty
  | none => status_empty

/-- Lines 121-123: fall back to the template if any required template key is
missing. -/
def ls_req_keys (st : JValue) : JValue :=
  (jKeys status_empty).foldl
    (fun s k => if jHasKey s k then s else status_empty) st

/-- Lines 124-125: coerce a non-dict token map to the template's empty
one. -/
def ls_tokens_check (st : JValue) : JValue :=
  if ((jGet st "matrix_access_tokens").getD .null).isObj then st
  else jSet st "matrix_access_tokens" (.obj [])

/-- Lines 126-129: unless this identity already maps to a string token, map
it to `None`. -/
def ls_token_id (st : JValue) (tid : String) : JValue :=
  match jGet ((jGet st "matrix_access_tokens").getD .null) tid with
  | some (.str _) => st
  | _ => jSet st "matrix_access_tokens"
      (jSet ((jGet st "matrix_access_tokens").getD .null) tid .null)

/-- Shallow embedding of `load_status` (lines 108-130), applied to the parse
result of the status file (`none` models an unreadable or unparseable
file).  The returned JSON value is the loaded status; no path raises. -/
def load_status (input : Option JValue) (tid : String) : JValue :=
  ls_token_id (ls_tokens_check (ls_req_keys (ls_dict_check input))) tid

/-- What the loader returns on any malformed input: the template with this
identity's token slot set to `None`. -/
def fallback_status (tid : String) : JValue :=
  .obj [("matrix_access_tokens", .obj [(tid, .null)]), ("rooms", .obj [])]

/-- The required-key pass falls back to the template when a required key is
missing. -/
theorem ls_req_keys_missing (j : JValue)
    (h : jHasKey j "matrix_access_tokens" = false ∨
      jHasKey j "rooms" = false) :
    ls_req_keys j = status_empty := by
  have h1 : jHasKey status_empty "rooms" = true := rfl
  have hfold : ls_req_keys j =
      if jHasKey (if jHasKey j "matrix_access_tokens" = true then j
          else status_empty) "rooms" = true then
        (if jHasKey j "matrix_access_tokens" = true then j else status_empty)
      else status_empty := rfl
  rw [hfold]
  rcases h with h | h
  · simp [h, h1]
  · by_cases h2 : jHasKey j "matrix_access_tokens" = true
    · simp [h2, h]
    · simp [Bool.eq_false_iff.mpr h2, h1]

/-- Claim C7: loader fallback.  For every malformed status-file content —
unreadable or unparseable (`none`), parseable but not an object, or an
object missing a required top-level key — `load_status` returns the empty
template state (with this identity's token slot set to `None`, as on every
path that lacks a stored token) instead of raising; the embedding is a total
function, so no input raises. -/
theorem load_status_fallback (input : Option JValue) (tid : String)
    (h : input = none ∨ ∃ j, input = some j ∧ (j.isObj = false ∨
      jHasKey j "matrix_access_tokens" = false ∨ jHasKey j "rooms" = false)) :
    load_status input tid = fallback_status tid := by
  have hse : ls_req_keys (ls_dict_check input) = status_empty := by
    rcases h with rfl | ⟨j, rfl, hj⟩
    · rfl
    · have hdc : ls_dict_check (some j) =
          if j.isObj = true then j else status_empty := rfl
      rw [hdc]
      rcases hj with hj | hj
      · rw [hj]
        rfl
      · by_cases hob : j.isObj = true
        · simp only [hob, if_true]
          exact ls_req_keys_missing j hj
        · rw [Bool.eq_false_iff.mpr hob]
          rfl
  unfold load_status
  rw [hse]
  rfl

/-- Witness for C7: a JSON array (not an object) falls back to the
template. -/
theorem load_status_fallback_witness :
    load_status (some (.arr [])) "user@host" = fallback_status "user@host" :=
  load_status_fallback (some (.arr [])) "user@host"
    (Or.inr ⟨.arr [], rfl, Or.inl rfl⟩)

/-! ## JSON serialisation (the counter-file write, lines 282-284)

`json.dump({'rooms': status['rooms']}, counterfile, indent=0,
separators=(',',':'))` followed by `json.load` on the produced text.  The
printer below writes the compact form (the `indent=0` newlines are
inter-token layout only and are abstracted away); the parser is a
recursive-descent reader of that grammar.  Strings are written verbatim
between quotes, which matches `json.dump` exactly for strings free of
quotes, backslashes and control characters (room ids, display names and ISO
timestamps); the `StrOk` predicate below restricts to that class. -/

/-- String content that `json.dump` writes verbatim (no escaping). -/
def StrOk (s : String) : Prop := ∀ c ∈ s.data, c ≠ '"' ∧ c ≠ '\\'

instance (s : String) : Decidable (StrOk s) :=
  inferInstanceAs (Decidable (∀ c ∈ s.data, c ≠ '"' ∧ c ≠ '\\'))

/-- A digit character is not a closing bracket or brace. -/
theorem digit_ne_closing (c : Char) (h : c.isDigit = true) :
    c ≠ ']' ∧ c ≠ '}' :=
  ⟨fun he => by rw [he] at h; exact absurd h (by decide),
   fun he => by rw [he] at h; exact absurd h (by decide)⟩

/-- Read string content up to the closing quote. -/
def takeStringChars : List Char → Option (List Char × List Char)
  | [] => none
  | c :: cs =>
      if c = '"' then some ([], cs)
      else
        match takeStringChars cs with
        | none => none
        | some (s, r) => some (c :: s, r)

/-- Reading quote-free content followed by a quote returns that content. -/
theorem takeStringChars_append (cs rest : List Char)
    (h : ∀ c ∈ cs, c ≠ '"') :
    takeStringChars (cs ++ '"' :: rest) = some (cs, rest) := by
  induction cs with
  | nil => simp [takeStringChars]
  | cons c cs ih =>
      have hc : c ≠ '"' := h c (List.mem_cons_self _ _)
      simp only [List.cons_append, takeStringChars, if_neg hc, List.append_eq]
      rw [ih (fun x hx => h x (List.mem_cons_of_mem _ hx))]

/-- Decimal digits of a natural number, most significant first
(`str(m)` for a non-negative int). -/
def natPrint (m : Nat) : List Char :=
  if m = 0 then ['0'] else (Nat.digits 10 m).reverse.map Nat.digitChar

/-- `str(n)` for a Python int. -/
def intPrint (n : Int) : List Char :=
  if n < 0 then '-' :: natPrint (-n).toNat else natPrint n.toNat

/-- The longest digit prefix and the remainder. -/
def takeDigits : List Char → (List Char × List Char)
  | [] => ([], [])
  | c :: cs =>
      if c.isDigit then (c :: (takeDigits cs).1, (takeDigits cs).2)
      else ([], c :: cs)

/-- Value of a most-significant-first digit string. -/
def digitsVal (ds : List Char) : Nat :=
  ds.foldl (fun acc c => acc * 10 + (c.toNat - 48)) 0

/-- Parse a natural number literal (at least one digit). -/
def parseNat (cs : List Char) : Option (Nat × List Char) :=
  match takeDigits cs with
  | ([], _) => none
  | (ds, r) => some (digitsVal ds, r)

/-- The input does not continue with a digit (so a number literal before it
ends there). -/
def noDigitHead : List Char → Prop
  | [] => True
  | c :: _ => c.isDigit = false

/-- The printed form of a digit below ten is a digit character. -/
theorem digitChar_isDigit : ∀ d : Nat, d < 10 →
    (Nat.digitChar d).isDigit = true := by decide

/-- Valuing the printed form of a digit below ten recovers it. -/
theorem digitChar_val : ∀ d : Nat, d < 10 →
    (Nat.digitChar d).toNat - 48 = d := by decide

/-- All characters printed for a natural number are digits. -/
theorem natPrint_digits (m : Nat) : ∀ c ∈ natPrint m, c.isDigit = true := by
  intro c hc
  unfold natPrint at hc
  by_cases h : m = 0
  · rw [if_pos h] at hc
    rw [List.mem_singleton.mp hc]
    decide
  · rw [if_neg h] at hc
    obtain ⟨d, hd, rfl⟩ := List.mem_map.mp hc
    rw [List.mem_reverse] at hd
    exact digitChar_isDigit d (Nat.digits_lt_base (by norm_num) hd)

/-- A natural number never prints as the empty string. -/
theorem natPrint_ne_nil (m : Nat) : natPrint m ≠ [] := by
  unfold natPrint
  by_cases h : m = 0
  · rw [if_pos h]
    simp
  · rw [if_neg h]
    simp [Nat.digits_ne_nil_iff_ne_zero, h]

/-- Folding the digit-accumulator over a printed digit list. -/
theorem digitsVal_aux (ds : List Nat) (h : ∀ d ∈ ds, d < 10) (a : Nat) :
    List.foldl (fun acc c => acc * 10 + (c.toNat - 48)) a
        (ds.reverse.map Nat.digitChar) =
      a * 10 ^ ds.length + Nat.ofDigits 10 ds := by
  induction ds generalizing a with
  | nil => simp [Nat.ofDigits]
  | cons d ds ih =>
      rw [List.reverse_cons, List.map_append, List.foldl_append]
      rw [ih (fun x hx => h x (List.mem_cons_of_mem _ hx)) a]
      simp only [List.map_cons, List.map_nil, List.foldl_cons, List.foldl_nil]
      rw [digitChar_val d (h d (List.mem_cons_self _ _)), Nat.ofDigits_cons,
        List.length_cons, pow_succ]
      ring

/-- Printing then valuing a natural number is the identity. -/
theorem digitsVal_natPrint (m : Nat) : digitsVal (natPrint m) = m := by
  unfold natPrint digitsVal
  by_cases h : m = 0
  · rw [if_pos h, h]
    rfl
  · rw [if_neg h]
    rw [digitsVal_aux (Nat.digits 10 m)
      (fun d hd => Nat.digits_lt_base (by norm_num) hd) 0]
    simp [Nat.ofDigits_digits]

/-- `takeDigits` splits a digit string followed by a non-digit exactly
there. -/
theorem takeDigits_span (ds rest : List Char)
    (hds : ∀ c ∈ ds, c.isDigit = true) (hr : noDigitHead rest) :
    takeDigits (ds ++ rest) = (ds, rest) := by
  induction ds with
  | nil =>
      simp only [List.nil_append]
      cases rest with
      | nil => rfl
      | cons c cs =>
          have hc : c.isDigit = false := hr
          unfold takeDigits
          rw [if_neg (by simp [hc])]
  | cons c cs ih =>
      simp only [List.cons_append, takeDigits, List.append_eq]
      rw [if_pos (hds c (List.mem_cons_self _ _))]
      rw [ih (fun x hx => hds x (List.mem_cons_of_mem _ hx))]

/-- Round trip for natural number literals. -/
theorem parseNat_print (m : Nat) (rest : List Char) (hr : noDigitHead rest) :
    parseNat (natPrint m ++ rest) = some (m, rest) := by
  have hspan : takeDigits (natPrint m ++ rest) = (natPrint m, rest) :=
    takeDigits_span (natPrint m) rest (natPrint_digits m) hr
  unfold parseNat
  rw [hspan]
  cases hmp : natPrint m with
  | nil => exact absurd hmp (natPrint_ne_nil m)
  | cons c cs =>
      have : digitsVal (c :: cs) = m := by
        rw [← hmp]
        exact digitsVal_natPrint m
      simp [this]

mutual

/-- Compact JSON text of a value: `json.dump` with separators `(',', ':')`
(the `indent=0` newlines are layout between tokens and are abstracted). -/
def printJ : JValue → List Char
  | .null => 'n' :: 'u' :: 'l' :: 'l' :: []
  | .bool true => 't' :: 'r' :: 'u' :: 'e' :: []
  | .bool false => 'f' :: 'a' :: 'l' :: 's' :: 'e' :: []
  | .num n => intPrint n
  | .str s => '"' :: (s.data ++ ['"'])
  | .arr [] => ['[', ']']
  | .arr (v :: vs) => '[' :: (printItems (v :: vs) ++ [']'])
  | .obj [] => ['{', '}']
  | .obj (kv :: kvs) => '{' :: (printPairs (kv :: kvs) ++ ['}'])

/-- Comma-separated array items. -/
def printItems : List JValue → List Char
  | [] => []
  | [v] => printJ v
  | v :: vs => printJ v ++ ',' :: printItems vs

/-- Comma-separated `"key":value` object entries. -/
def printPairs : List (String × JValue) → List Char
  | [] => []
  | [(k, v)] => '"' :: (k.data ++ ('"' :: ':' :: printJ v))
  | (k, v) :: kvs =>
      ('"' :: (k.data ++ ('"' :: ':' :: printJ v))) ++ ',' :: printPairs kvs

end

/-- Recognise the tail of the keyword `null`. -/
def parseNull : List Char → Option (JValue × List Char)
  | c1 :: c2 :: c3 :: r =>
      if c1 = 'u' ∧ c2 = 'l' ∧ c3 = 'l' then some (.null, r) else none
  | _ => none

/-- Recognise the tail of the keyword `true`. -/
def parseTrue : List Char → Option (JValue × List Char)
  | c1 :: c2 :: c3 :: r =>
      if c1 = 'r' ∧ c2 = 'u' ∧ c3 = 'e' then some (.bool true, r) else none
  | _ => none

/-- Recognise the tail of the keyword `false`. -/
def parseFalse : List Char → Option (JValue × List Char)
  | c1 :: c2 :: c3 :: c4 :: r =>
      if c1 = 'a' ∧ c2 = 'l' ∧ c3 = 's' ∧ c4 = 'e' then some (.bool false, r)
      else none
  | _ => none

mutual

/-- Fuel-bounded recursive-descent JSON reader (`json.load`) over the
compact grammar the printer emits; the leading character selects the
production. -/
def parseJ : Nat → List Char → Option (JValue × List Char)
  | 0, _ => none
  | _ + 1, [] => none
  | fuel + 1, c :: cs =>
      if c = 'n' then parseNull cs
      else if c = 't' then parseTrue cs
      else if c = 'f' then parseFalse cs
      else if c = '"' then
        (takeStringChars cs).map fun sp => (.str (String.mk sp.1), sp.2)
      else if c = '[' then parseArrBody fuel cs
      else if c = '{' then parseObjBody fuel cs
      else if c = '-' then
        (parseNat cs).map fun mp => (.num (-(mp.1 : Int)), mp.2)
      else if c.isDigit then
        (parseNat (c :: cs)).map fun mp => (.num (mp.1 : Int), mp.2)
      else none
termination_by fuel cs => (fuel, 3)

/-- After '[': an immediate ']' is the empty array, else the element
list. -/
def parseArrBody : Nat → List Char → Option (JValue × List Char)
  | _, [] => none
  | fuel, d :: cs =>
      if d = ']' then some (.arr [], cs)
      else (parseArr fuel (d :: cs)).map fun q => (.arr q.1, q.2)
termination_by fuel cs => (fuel, 2)

/-- After '{': an immediate '}' is the empty object, else the entry list. -/
def parseObjBody : Nat → List Char → Option (JValue × List Char)
  | _, [] => none
  | fuel, d :: cs =>
      if d = '}' then some (.obj [], cs)
      else (parseObj fuel (d :: cs)).map fun q => (.obj q.1, q.2)
termination_by fuel cs => (fuel, 2)

/-- Parse comma-separated values up to and including the closing ']'. -/
def parseArr : Nat → List Char → Option (List JValue × List Char)
  | 0, _ => none
  | fuel + 1, cs =>
      (parseJ fuel cs).bind fun p => parseArrTail fuel p.1 p.2
termination_by fuel cs => (fuel, 0)

/-- After one array element: a comma continues the element list, a closing
bracket ends it. -/
def parseArrTail (fuel : Nat) (v : JValue) :
    List Char → Option (List JValue × List Char)
  | [] => none
  | d :: r =>
      if d = ',' then (parseArr fuel r).map fun q => (v :: q.1, q.2)
      else if d = ']' then some ([v], r)
      else none
termination_by cs => (fuel, 1)

/-- Parse comma-separated `"key":value` entries up to and including the
closing '}'. -/
def parseObj : Nat → List Char → Option (List (String × JValue) × List Char)
  | 0, _ => none
  | _ + 1, [] => none
  | fuel + 1, c :: cs =>
      if c = '"' then
        (takeStringChars cs).bind fun kp =>
          parseObjKey fuel (String.mk kp.1) kp.2
      else none
termination_by fuel cs => (fuel, 0)

/-- After an object key: expect a colon, then the value. -/
def parseObjKey (fuel : Nat) (k : String) :
    List Char → Option (List (String × JValue) × List Char)
  | [] => none
  | d :: r =>
      if d = ':' then
        (parseJ fuel r).bind fun vp => parseObjTail fuel k vp.1 vp.2
      else none
termination_by cs => (fuel, 4)

/-- After one object entry: a comma continues the entry list, a closing
brace ends it. -/
def parseObjTail (fuel : Nat) (k : String) (v : JValue) :
    List Char → Option (List (String × JValue) × List Char)
  | [] => none
  | e :: r =>
      if e = ',' then (parseObj fuel r).map fun q => ((k, v) :: q.1, q.2)
      else if e = '}' then some ([(k, v)], r)
      else none
termination_by cs => (fuel, 1)

end

/-- JSON values whose strings (contents and keys) are written verbatim by
the printer (no escaping needed). -/
inductive JWf : JValue → Prop where
  | null : JWf .null
  | bool (b : Bool) : JWf (.bool b)
  | num (n : Int) : JWf (.num n)
  | str (s : String) : StrOk s → JWf (.str s)
  | arr (vs : List JValue) : (∀ v ∈ vs, JWf v) → JWf (.arr vs)
  | obj (kvs : List (String × JValue)) : (∀ p ∈ kvs, StrOk p.1) →
      (∀ p ∈ kvs, JWf p.2) → JWf (.obj kvs)

/-- The first printed character of a value exists and is never a closing
bracket or brace. -/
theorem printJ_head (v : JValue) :
    ∃ c cs, printJ v = c :: cs ∧ c ≠ ']' ∧ c ≠ '}' := by
  cases v with
  | null => exact ⟨'n', ['u', 'l', 'l'], by simp [printJ], by decide, by decide⟩
  | bool b =>
      cases b with
      | true =>
          exact ⟨'t', ['r', 'u', 'e'], by simp [printJ], by decide, by decide⟩
      | false =>
          exact ⟨'f', ['a', 'l', 's', 'e'], by simp [printJ], by decide,
            by decide⟩
  | num n =>
      by_cases hn : n < 0
      · refine ⟨'-', natPrint (-n).toNat, ?_, by decide, by decide⟩
        simp [printJ, intPrint, hn]
      · cases hmp : natPrint n.toNat with
        | nil => exact absurd hmp (natPrint_ne_nil _)
        | cons c cs =>
            have hc : c.isDigit = true := by
              apply natPrint_digits n.toNat
              rw [hmp]
              exact List.mem_cons_self _ _
            obtain ⟨h1, h2⟩ := digit_ne_closing c hc
            refine ⟨c, cs, ?_, h1, h2⟩
            simp [printJ, intPrint, hn, hmp]
  | str s =>
      exact ⟨'"', s.data ++ ['"'], by simp [printJ], by decide, by decide⟩
  | arr vs =>
      cases vs with
      | nil => exact ⟨'[', [']'], by simp [printJ], by decide, by decide⟩
      | cons v vs =>
          exact ⟨'[', printItems (v :: vs) ++ [']'], by simp [printJ],
            by decide, by decide⟩
  | obj kvs =>
      cases kvs with
      | nil => exact ⟨'{', ['}'], by simp [printJ], by decide, by decide⟩
      | cons kv kvs =>
          exact ⟨'{', printPairs (kv :: kvs) ++ ['}'], by simp [printJ],
            by decide, by decide⟩

/-- Every JSON value has positive size. -/
theorem sizeOf_jvalue_pos (v : JValue) : 0 < sizeOf v := by
  cases v <;> simp

/-- Every list of JSON values has positive size. -/
theorem sizeOf_jlist_pos (vs : List JValue) : 0 < sizeOf vs := by
  cases vs <;> simp

/-- Every list of JSON object entries has positive size. -/
theorem sizeOf_jpairs_pos (kvs : List (String × JValue)) : 0 < sizeOf kvs := by
  cases kvs <;> simp

/-- A nonempty item list prints as its first value followed by a tail. -/
theorem printItems_cons (v : JValue) (vs : List JValue) :
    ∃ t, printItems (v :: vs) = printJ v ++ t := by
  cases vs with
  | nil => exact ⟨[], by simp [printItems]⟩
  | cons w ws => exact ⟨',' :: printItems (w :: ws), by simp [printItems]⟩

/-- A nonempty entry list prints starting with a quote. -/
theorem printPairs_head (p : String × JValue) (kvs : List (String × JValue)) :
    ∃ t, printPairs (p :: kvs) = '"' :: t := by
  obtain ⟨k, v⟩ := p
  cases kvs with
  | nil => exact ⟨k.data ++ ('"' :: ':' :: printJ v), by simp [printPairs]⟩
  | cons q qs =>
      exact ⟨(k.data ++ ('"' :: ':' :: printJ v)) ++ ',' :: printPairs (q :: qs),
        by simp [printPairs]⟩

/-- Building block for `noDigitHead` facts. -/
theorem noDigitHead_cons (c : Char) (cs : List Char)
    (h : c.isDigit = false) : noDigitHead (c :: cs) := h

/-- `parseJ` on a leading 'n' reads the `null` keyword. -/
theorem parseJ_kw_n (fuel : Nat) (cs : List Char) :
    parseJ (fuel + 1) ('n' :: cs) = parseNull cs := by
  simp [parseJ]

/-- `parseJ` on a leading 't' reads the `true` keyword. -/
theorem parseJ_kw_t (fuel : Nat) (cs : List Char) :
    parseJ (fuel + 1) ('t' :: cs) = parseTrue cs := by
  simp [parseJ]

/-- `parseJ` on a leading 'f' reads the `false` keyword. -/
theorem parseJ_kw_f (fuel : Nat) (cs : List Char) :
    parseJ (fuel + 1) ('f' :: cs) = parseFalse cs := by
  simp [parseJ]

/-- `parseJ` on a leading quote reads a string. -/
theorem parseJ_quote (fuel : Nat) (cs : List Char) :
    parseJ (fuel + 1) ('"' :: cs) =
      (takeStringChars cs).map fun sp => (.str (String.mk sp.1), sp.2) := by
  simp [parseJ]

/-- `parseJ` on a leading '[' reads an array. -/
theorem parseJ_lbracket (fuel : Nat) (cs : List Char) :
    parseJ (fuel + 1) ('[' :: cs) = parseArrBody fuel cs := by
  simp [parseJ]

/-- `parseJ` on a leading '{' reads an object. -/
theorem parseJ_lbrace (fuel : Nat) (cs : List Char) :
    parseJ (fuel + 1) ('{' :: cs) = parseObjBody fuel cs := by
  simp [parseJ]

/-- `parseJ` on a leading '-' reads a negative number. -/
theorem parseJ_minus (fuel : Nat) (cs : List Char) :
    parseJ (fuel + 1) ('-' :: cs) =
      (parseNat cs).map fun mp => (.num (-(mp.1 : Int)), mp.2) := by
  simp [parseJ]

/-- `parseJ` on a leading digit reads a non-negative number. -/
theorem parseJ_digit (fuel : Nat) (c : Char) (cs : List Char)
    (h : c.isDigit = true) :
    parseJ (fuel + 1) (c :: cs) =
      (parseNat (c :: cs)).map fun mp => (.num (mp.1 : Int), mp.2) := by
  have h1 : c ≠ 'n' := fun he => by rw [he] at h; exact absurd h (by decide)
  have h2 : c ≠ 't' := fun he => by rw [he] at h; exact absurd h (by decide)
  have h3 : c ≠ 'f' := fun he => by rw [he] at h; exact absurd h (by decide)
  have h4 : c ≠ '"' := fun he => by rw [he] at h; exact absurd h (by decide)
  have h5 : c ≠ '[' := fun he => by rw [he] at h; exact absurd h (by decide)
  have h6 : c ≠ '{' := fun he => by rw [he] at h; exact absurd h (by decide)
  have h7 : c ≠ '-' := fun he => by rw [he] at h; exact absurd h (by decide)
  simp only [parseJ]
  rw [if_neg h1, if_neg h2, if_neg h3, if_neg h4, if_neg h5, if_neg h6,
    if_neg h7, if_pos h]

/-- Round trip: parsing the printed text of a well-formed value (with any
non-digit-leading remainder appended) returns exactly that value and the
remainder, given enough fuel; similarly for nonempty item and entry lists
followed by their closing bracket or brace. -/
theorem parse_printJ (fuel : Nat) :
    (∀ v : JValue, JWf v → sizeOf v ≤ fuel → ∀ rest : List Char,
        noDigitHead rest → parseJ fuel (printJ v ++ rest) = some (v, rest)) ∧
    (∀ vs : List JValue, (∀ x ∈ vs, JWf x) → vs ≠ [] → sizeOf vs ≤ fuel →
        ∀ rest : List Char,
          parseArr fuel (printItems vs ++ ']' :: rest) = some (vs, rest)) ∧
    (∀ kvs : List (String × JValue), (∀ q ∈ kvs, StrOk q.1) →
        (∀ q ∈ kvs, JWf q.2) → kvs ≠ [] → sizeOf kvs ≤ fuel →
        ∀ rest : List Char,
          parseObj fuel (printPairs kvs ++ '}' :: rest) = some (kvs, rest)) := by
  induction fuel with
  | zero =>
      refine ⟨?_, ?_, ?_⟩
      · intro v _ hsz
        have := sizeOf_jvalue_pos v
        omega
      · intro vs _ _ hsz
        have := sizeOf_jlist_pos vs
        omega
      · intro kvs _ _ _ hsz
        have := sizeOf_jpairs_pos kvs
        omega
  | succ fuel ih =>
      obtain ⟨ihV, ihA, ihO⟩ := ih
      refine ⟨?_, ?_, ?_⟩
      · intro v hwf hsz rest hrest
        cases v with
        | null =>
            rw [show printJ .null ++ rest = 'n' :: 'u' :: 'l' :: 'l' :: rest
              from by simp [printJ]]
            rw [parseJ_kw_n]
            simp [parseNull]
        | bool b =>
            cases b with
            | true =>
                rw [show printJ (.bool true) ++ rest =
                    't' :: 'r' :: 'u' :: 'e' :: rest from by simp [printJ]]
                rw [parseJ_kw_t]
                simp [parseTrue]
            | false =>
                rw [show printJ (.bool false) ++ rest =
                    'f' :: 'a' :: 'l' :: 's' :: 'e' :: rest from by
                  simp [printJ]]
                rw [parseJ_kw_f]
                simp [parseFalse]
        | num n =>
            by_cases hn : n < 0
            · rw [show printJ (.num n) ++ rest =
                  '-' :: (natPrint (-n).toNat ++ rest) from by
                simp [printJ, intPrint, hn]]
              rw [parseJ_minus, parseNat_print ((-n).toNat) rest hrest]
              simp [Option.map_some',
                Int.toNat_of_nonneg (by omega : (0 : Int) ≤ -n)]
            · cases hmp : natPrint n.toNat with
              | nil => exact absurd hmp (natPrint_ne_nil _)
              | cons c cs0 =>
                  have hc : c.isDigit = true := by
                    apply natPrint_digits n.toNat
                    rw [hmp]
                    exact List.mem_cons_self _ _
                  rw [show printJ (.num n) ++ rest = c :: (cs0 ++ rest) from by
                    simp [printJ, intPrint, hn, hmp]]
                  rw [parseJ_digit fuel c (cs0 ++ rest) hc]
                  rw [show c :: (cs0 ++ rest) = natPrint n.toNat ++ rest from by
                    simp [hmp]]
                  rw [parseNat_print n.toNat rest hrest]
                  simp [Option.map_some',
                    Int.toNat_of_nonneg (by omega : (0 : Int) ≤ n)]
        | str s =>
            obtain ⟨sdata⟩ := s
            have hok : ∀ c ∈ sdata, c ≠ '"' := by
              cases hwf with
              | str _ h => exact fun c hc => (h c hc).1
            rw [show printJ (.str (String.mk sdata)) ++ rest =
                '"' :: (sdata ++ '"' :: rest) from by simp [printJ]]
            rw [parseJ_quote, takeStringChars_append sdata rest hok]
            simp [Option.map_some']
        | arr vs =>
            cases vs with
            | nil =>
                rw [show printJ (.arr []) ++ rest = '[' :: ']' :: rest from by
                  simp [printJ]]
                rw [parseJ_lbracket]
                simp [parseArrBody]
            | cons v vs =>
                have hall : ∀ x ∈ v :: vs, JWf x := by
                  cases hwf with
                  | arr _ h => exact h
                have hsz' : sizeOf (v :: vs) ≤ fuel := by
                  simp at hsz ⊢
                  omega
                obtain ⟨t, ht⟩ := printItems_cons v vs
                obtain ⟨c, cs0, hpv, hc1, hc2⟩ := printJ_head v
                rw [show printJ (.arr (v :: vs)) ++ rest =
                    '[' :: (c :: (cs0 ++ (t ++ ']' :: rest))) from by
                  simp [printJ, ht, hpv]]
                rw [parseJ_lbracket]
                simp only [parseArrBody]
                rw [if_neg hc1]
                rw [show c :: (cs0 ++ (t ++ ']' :: rest)) =
                    printItems (v :: vs) ++ ']' :: rest from by simp [ht, hpv]]
                rw [ihA (v :: vs) hall (List.cons_ne_nil v vs) hsz' rest]
                simp [Option.map_some']
        | obj kvs =>
            cases kvs with
            | nil =>
                rw [show printJ (.obj []) ++ rest = '{' :: '}' :: rest from by
                  simp [printJ]]
                rw [parseJ_lbrace]
                simp [parseObjBody]
            | cons p kvs =>
                have hks : ∀ q ∈ p :: kvs, StrOk q.1 := by
                  cases hwf with
                  | obj _ h1 h2 => exact h1
                have hvs : ∀ q ∈ p :: kvs, JWf q.2 := by
                  cases hwf with
                  | obj _ h1 h2 => exact h2
                have hsz' : sizeOf (p :: kvs) ≤ fuel := by
                  simp at hsz ⊢
                  omega
                obtain ⟨t, ht⟩ := printPairs_head p kvs
                rw [show printJ (.obj (p :: kvs)) ++ rest =
                    '{' :: ('"' :: (t ++ '}' :: rest)) from by simp [printJ, ht]]
                rw [parseJ_lbrace]
                simp only [parseObjBody]
                rw [if_neg (by decide : ¬('"' : Char) = '}')]
                rw [show ('"' : Char) :: (t ++ '}' :: rest) =
                    printPairs (p :: kvs) ++ '}' :: rest from by simp [ht]]
                rw [ihO (p :: kvs) hks hvs (List.cons_ne_nil p kvs) hsz' rest]
                simp [Option.map_some']
      · intro vs hall hne hsz rest
        cases vs with
        | nil => exact absurd rfl hne
        | cons v vs =>
            have hv : JWf v := hall v (List.mem_cons_self _ _)
            cases vs with
            | nil =>
                have hszv : sizeOf v ≤ fuel := by
                  simp at hsz
                  omega
                simp only [printItems, parseArr]
                rw [ihV v hv hszv (']' :: rest)
                  (noDigitHead_cons ']' rest (by decide))]
                simp [parseArrTail]
            | cons w vs' =>
                have hszv : sizeOf v ≤ fuel := by
                  simp at hsz
                  omega
                have hsz2 : sizeOf (w :: vs') ≤ fuel := by
                  simp at hsz ⊢
                  omega
                simp only [printItems, parseArr, List.cons_append,
                  List.append_assoc]
                rw [ihV v hv hszv
                  (',' :: (printItems (w :: vs') ++ ']' :: rest))
                  (noDigitHead_cons ',' _ (by decide))]
                simp only [Option.some_bind, parseArrTail]
                rw [ihA (w :: vs')
                  (fun x hx => hall x (List.mem_cons_of_mem _ hx))
                  (List.cons_ne_nil w vs') hsz2 rest]
                simp [Option.map_some']
      · intro kvs hks hvs hne hsz rest
        cases kvs with
        | nil => exact absurd rfl hne
        | cons p kvs =>
            obtain ⟨k, v⟩ := p
            obtain ⟨kdata⟩ := k
            have hkok : ∀ c ∈ kdata, c ≠ '"' :=
              fun c hc => (hks (String.mk kdata, v)
                (List.mem_cons_self _ _) c hc).1
            have hv : JWf v := hvs (String.mk kdata, v) (List.mem_cons_self _ _)
            cases kvs with
            | nil =>
                have hszv : sizeOf v ≤ fuel := by
                  simp at hsz
                  omega
                simp only [printPairs, parseObj, List.cons_append,
                  List.append_assoc]
                rw [takeStringChars_append kdata _ hkok]
                simp only [Option.some_bind, parseObjKey]
                rw [ihV v hv hszv ('}' :: rest)
                  (noDigitHead_cons '}' rest (by decide))]
                simp [parseObjTail]
            | cons q kvs' =>
                have hszv : sizeOf v ≤ fuel := by
                  simp at hsz
                  omega
                have hsz2 : sizeOf (q :: kvs') ≤ fuel := by
                  simp at hsz ⊢
                  omega
                simp only [printPairs, parseObj, List.cons_append,
                  List.append_assoc]
                rw [takeStringChars_append kdata _ hkok]
                simp only [Option.some_bind, parseObjKey]
                rw [ihV v hv hszv
                  (',' :: (printPairs (q :: kvs') ++ '}' :: rest))
                  (noDigitHead_cons ',' _ (by decide))]
                simp only [Option.some_bind, parseObjTail]
                rw [ihO (q :: kvs')
                  (fun x hx => hks x (List.mem_cons_of_mem _ hx))
                  (fun x hx => hvs x (List.mem_cons_of_mem _ hx))
                  (List.cons_ne_nil q kvs') hsz2 rest]
                simp [Option.map_some']

/-- The JSON record of one room: `{'name': ..., 'counts': [dates, values]}`
as the status structure stores it. -/
def roomJson (r : RoomRec) : JValue :=
  .obj [("name", .str r.name),
        ("counts", .arr [.arr (r.dates.map JValue.str),
                         .arr (r.values.map JValue.num)])]

/-- The counter-file projection `{'rooms': status['rooms']}` (line 283). -/
def counterJson (rooms : List (String × RoomRec)) : JValue :=
  .obj [("rooms", .obj (rooms.map (fun p => (p.1, roomJson p.2))))]

/-- All strings of a room table (ids, display names, timestamps) are written
verbatim by `json.dump`, i.e. contain no quote or backslash; true of real
room ids, display names and ISO timestamps. -/
def RoomStringsOk (rooms : List (String × RoomRec)) : Prop :=
  ∀ p ∈ rooms, StrOk p.1 ∧ StrOk p.2.name ∧ ∀ d ∈ p.2.dates, StrOk d

instance (rooms : List (String × RoomRec)) : Decidable (RoomStringsOk rooms) :=
  inferInstanceAs (Decidable (∀ p ∈ rooms,
    StrOk p.1 ∧ StrOk p.2.name ∧ ∀ d ∈ p.2.dates, StrOk d))

/-- One room record's JSON is well formed. -/
theorem roomJson_wf (r : RoomRec) (hn : StrOk r.name)
    (hd : ∀ d ∈ r.dates, StrOk d) : JWf (roomJson r) := by
  apply JWf.obj
  · intro q hq
    rcases List.mem_cons.mp hq with rfl | hq
    · exact (by decide : StrOk "name")
    · rw [List.mem_singleton.mp hq]
      exact (by decide : StrOk "counts")
  · intro q hq
    rcases List.mem_cons.mp hq with rfl | hq
    · exact JWf.str r.name hn
    · rw [List.mem_singleton.mp hq]
      apply JWf.arr
      intro v hv
      rcases List.mem_cons.mp hv with rfl | hv
      · apply JWf.arr
        intro x hx
        obtain ⟨d, hdm, rfl⟩ := List.mem_map.mp hx
        exact JWf.str d (hd d hdm)
      · rw [List.mem_singleton.mp hv]
        apply JWf.arr
        intro x hx
        obtain ⟨m, -, rfl⟩ := List.mem_map.mp hx
        exact JWf.num m

/-- The counter-file JSON is well formed when the room strings are. -/
theorem counterJson_wf (rooms : List (String × RoomRec))
    (h : RoomStringsOk rooms) : JWf (counterJson rooms) := by
  apply JWf.obj
  · intro q hq
    rw [List.mem_singleton.mp hq]
    exact (by decide : StrOk "rooms")
  · intro q hq
    rw [List.mem_singleton.mp hq]
    apply JWf.obj
    · intro p hp
      obtain ⟨a, ha, rfl⟩ := List.mem_map.mp hp
      exact (h a ha).1
    · intro p hp
      obtain ⟨a, ha, rfl⟩ := List.mem_map.mp hp
      exact roomJson_wf a.2 (h a ha).2.1 (h a ha).2.2

/-- Decode a list through a partial element decoder. -/
def optList {γ δ : Type} (f : γ → Option δ) : List γ → Option (List δ)
  | [] => some []
  | x :: xs =>
      match f x, optList f xs with
      | some y, some ys => some (y :: ys)
      | _, _ => none

/-- Read a JSON string. -/
def jToStr : JValue → Option String
  | .str s => some s
  | _ => none

/-- Read a JSON integer. -/
def jToNum : JValue → Option Int
  | .num n => some n
  | _ => none

/-- Decode one room record from JSON. -/
def jToRoom (j : JValue) : Option RoomRec :=
  match jGet j "name", jGet j "counts" with
  | some (.str nm), some (.arr [.arr ds, .arr vs]) =>
      match optList jToStr ds, optList jToNum vs with
      | some dates, some values => some ⟨nm, dates, values⟩
      | _, _ => none
  | _, _ => none

/-- Decode the counter-file JSON back into the room table. -/
def jToRooms (j : JValue) : Option (List (String × RoomRec)) :=
  match jGet j "rooms" with
  | some (.obj kvs) =>
      optList (fun p => (jToRoom p.2).map (fun r => (p.1, r))) kvs
  | _ => none

/-- Decoding an encoded string list recovers it. -/
theorem optList_map_str (ds : List String) :
    optList jToStr (ds.map JValue.str) = some ds := by
  induction ds with
  | nil => rfl
  | cons d ds ih => simp [optList, jToStr, ih]

/-- Decoding an encoded integer list recovers it. -/
theorem optList_map_num (vs : List Int) :
    optList jToNum (vs.map JValue.num) = some vs := by
  induction vs with
  | nil => rfl
  | cons v vs ih => simp [optList, jToNum, ih]

/-- Decoding one room's JSON recovers the record. -/
theorem jToRoom_roomJson (r : RoomRec) : jToRoom (roomJson r) = some r := by
  have h1 : jGet (roomJson r) "name" = some (.str r.name) := rfl
  have h2 : jGet (roomJson r) "counts" =
      some (.arr [.arr (r.dates.map JValue.str),
                  .arr (r.values.map JValue.num)]) := rfl
  simp only [jToRoom, h1, h2, optList_map_str, optList_map_num]

/-- Decoding the encoded room table recovers it. -/
theorem optList_rooms (rooms : List (String × RoomRec)) :
    optList (fun p => (jToRoom p.2).map (fun r => (p.1, r)))
      (rooms.map (fun p => (p.1, roomJson p.2))) = some rooms := by
  induction rooms with
  | nil => rfl
  | cons p ps ih =>
      simp only [List.map_cons, optList, jToRoom_roomJson, Option.map_some',
        ih]

/-- `jToRooms` inverts the counter-file projection. -/
theorem jToRooms_counterJson (rooms : List (String × RoomRec)) :
    jToRooms (counterJson rooms) = some rooms := by
  have h : jGet (counterJson rooms) "rooms" =
      some (.obj (rooms.map (fun p => (p.1, roomJson p.2)))) := rfl
  simp only [jToRooms, h, optList_rooms]

/-- Claim C8: counter-file round trip.  For every room table whose strings
are escape-free (room ids, display names, ISO timestamps), serialising the
counter-file projection `{"rooms": rooms}` to JSON text and parsing the
text back reproduces exactly the same JSON value, whose decoding is exactly
the same room-id → (name, counts) mapping; and the projection carries no
credential fields: no `matrix_access_tokens` key, its only top-level key is
`rooms`. -/
theorem counter_file_roundtrip (rooms : List (String × RoomRec))
    (h : RoomStringsOk rooms) :
    parseJ (sizeOf (counterJson rooms)) (printJ (counterJson rooms)) =
        some (counterJson rooms, []) ∧
      jToRooms (counterJson rooms) = some rooms ∧
      jHasKey (counterJson rooms) "matrix_access_tokens" = false ∧
      jKeys (counterJson rooms) = ["rooms"] := by
  refine ⟨?_, jToRooms_counterJson rooms, rfl, rfl⟩
  have hwf : JWf (counterJson rooms) := counterJson_wf rooms h
  have := (parse_printJ (sizeOf (counterJson rooms))).1 (counterJson rooms)
    hwf (le_refl _) [] trivial
  simpa using this

/-- Witness for C8: a one-room table with a plateau series round-trips. -/
theorem counter_file_roundtrip_witness :
    parseJ (sizeOf (counterJson
          [("!r:x", ⟨"Room", ["2024-01-01T00:00:00"], [5]⟩)]))
        (printJ (counterJson
          [("!r:x", ⟨"Room", ["2024-01-01T00:00:00"], [5]⟩)])) =
        some (counterJson
          [("!r:x", ⟨"Room", ["2024-01-01T00:00:00"], [5]⟩)], []) ∧
      jToRooms (counterJson
          [("!r:x", ⟨"Room", ["2024-01-01T00:00:00"], [5]⟩)]) =
        some [("!r:x", ⟨"Room", ["2024-01-01T00:00:00"], [5]⟩)] ∧
      jHasKey (counterJson
          [("!r:x", ⟨"Room", ["2024-01-01T00:00:00"], [5]⟩)])
        "matrix_access_tokens" = false ∧
      jKeys (counterJson
          [("!r:x", ⟨"Room", ["2024-01-01T00:00:00"], [5]⟩)]) = ["rooms"] :=
  counter_file_roundtrip [("!r:x", ⟨"Room", ["2024-01-01T00:00:00"], [5]⟩)]
    (by decide)

end MatrixCounter
